import Mathlib

/-!
# Verification of the tiling-corona-finder core

A shallow embedding of the corona data model, validator, canonicalizer,
enumerator and compact text codec of the repository, together with proofs
of the specification claims about them.

Modelling conventions:
* JavaScript numbers that hold segment data are exact integers in this
  repository, so they are embedded as `Int` (this idealizes away IEEE-754
  precision loss above 2^53, which no claim exercises).
* A corona's `center` is an `Option Int`: `some c` is an integral number,
  `none` models a number that is not an integer (such as the `NaN` that
  `parseInt` produces on non-numeric text); `Number.isInteger` is false on
  both `NaN` and fractional numbers, and that predicate is the only way the
  code observes such a center.
* JavaScript strings are embedded as `List Char`; all characters the code
  produces or compares are ASCII, where code-unit order coincides with the
  code-point order used here.
* `Array.prototype.sort` (ES2019 and later: a stable sort) composed with the
  comparators used in the source is embedded as `List.insertionSort` with the
  total preorder induced by the comparator: a stable sort consistent with a
  total preorder is unique, so this is exact.
* Code paths where JavaScript would throw (a `TypeError` from reading a
  property of `undefined`, or an explicit `throw new Error`) are embedded in
  `Except String`; a thrown fault is `.error`.
-/

deriving instance DecidableEq for Except

structure EdgeSeg where
  size : Int
  offset : Int
deriving DecidableEq, Repr

abbrev Edge := List EdgeSeg

structure Corona where
  center : Option Int
  edges : List Edge
deriving DecidableEq, Repr

/-- The structured result `{ok, reason?}` of `Corona.validate`.  The `where`
payload of the source is heterogeneous debug data that no claim reads, and is
not modelled. -/
inductive ValidationResult where
  | ok : ValidationResult
  | fail (reason : String) : ValidationResult
deriving DecidableEq, Repr

/-- The total preorder induced by the comparator
`(a, b) => a.offset !== b.offset ? a.offset - b.offset : a.size - b.size`
used to sort an edge in `validate`, `toCompact` and `edgeKey`. -/
def segLE (a b : EdgeSeg) : Prop :=
  a.offset < b.offset ∨ (a.offset = b.offset ∧ a.size ≤ b.size)

instance : DecidableRel segLE := fun a b => by
  unfold segLE; infer_instance

instance : IsTotal EdgeSeg segLE := ⟨by intro a b; unfold segLE; omega⟩

instance : IsTrans EdgeSeg segLE := ⟨by intro a b c; unfold segLE; omega⟩

/-- Models `[...e].sort((a, b) => a.offset !== b.offset ? a.offset - b.offset : a.size - b.size)`. -/
def sortSegs (e : Edge) : Edge := List.insertionSort segLE e

/-- The total preorder induced by the comparator `(a, b) => a.offset - b.offset`
used to sort an edge in the corner-gap phase of `validate`. -/
def offLE (a b : EdgeSeg) : Prop := a.offset ≤ b.offset

instance : DecidableRel offLE := fun a b => by
  unfold offLE; infer_instance

instance : IsTotal EdgeSeg offLE := ⟨by intro a b; unfold offLE; omega⟩

instance : IsTrans EdgeSeg offLE := ⟨by intro a b c; unfold offLE; omega⟩

/-- Models `[...e].sort((a, b) => a.offset - b.offset)`. -/
def sortByOffset (e : Edge) : Edge := List.insertionSort offLE e

/-- Reading `l[0]` in JavaScript and then a property of the result: a fault
when the array is empty. -/
def jsFirst {α : Type} (l : List α) : Except String α :=
  match l with
  | [] => .error "TypeError: cannot read property of undefined"
  | a :: _ => .ok a

/-- Reading `l[l.length - 1]` in JavaScript and then a property of the result:
a fault when the array is empty. -/
def jsLast {α : Type} (l : List α) : Except String α :=
  match l.getLast? with
  | none => .error "TypeError: cannot read property of undefined"
  | some a => .ok a

/-- The `for (const seg of segs)` loop of `validate`: for each segment in
turn, the size-legality, offset-range and center-alignment checks; the first
failure wins. -/
def segScan (c : Int) (allowed : List Int) : List EdgeSeg → Option String
  | [] => none
  | s :: rest =>
    if s.size ∉ allowed ∨ s.size ≤ 0 then some "invalid segment size"
    else if s.offset < 0 ∨ c < s.offset then some "offset out of range"
    else if s.size = c ∧ s.offset = 0 then some "not unilateral (center-sized aligned)"
    else segScan c allowed rest

/-- The loop testing `segs[i].size === segs[i + 1].size` for consecutive `i`. -/
def adjEqScan : List EdgeSeg → Bool
  | a :: b :: rest => a.size == b.size || adjEqScan (b :: rest)
  | _ => false

/-- The loop testing `segs[i + 1].offset !== segs[i].offset + segs[i].size`
for consecutive `i`. -/
def walkScan : List EdgeSeg → Bool
  | a :: b :: rest => b.offset != a.offset + a.size || walkScan (b :: rest)
  | _ => false

/-- The body of the per-edge loop of `validate`: `some reason` is an early
`return {ok:false, reason}`, `none` means the edge passed. -/
def checkEdge (c : Int) (allowed : List Int) (edge : Edge) : Except String (Option String) :=
  if edge.isEmpty then .ok (some "edge empty")
  else
    let segs := sortSegs edge
    match segScan c allowed segs with
    | some r => .ok (some r)
    | none =>
      if adjEqScan segs then .ok (some "not unilateral (equal adjacent sizes)")
      else do
        let s0 ← jsFirst segs
        if s0.offset ≠ 0 then pure (some "edge does not start at 0")
        else if walkScan segs then pure (some "invalid edge walk")
        else do
          let sl ← jsLast segs
          if sl.offset + sl.size < c then pure (some "edge does not reach center length")
          else pure none

/-- The per-edge loop of `validate` over all edges in order. -/
def checkEdges (c : Int) (allowed : List Int) : List Edge → Except String (Option String)
  | [] => .ok none
  | e :: rest => do
    match (← checkEdge c allowed e) with
    | some r => pure (some r)
    | none => checkEdges c allowed rest

/-- One iteration of the corner-gap loop of `validate`: sorts `edge` and the
cyclically next edge by offset, reads the last segment of the former and the
first segment of the latter, and returns the last segment's size together
with whether this corner has a 1×1 gap (`overhang === 1 && firstSegSize === 1`). -/
def cornerAt (c : Int) (edge nextEdge : Edge) : Except String (Int × Bool) := do
  let segs := sortByOffset edge
  let nextSegs := sortByOffset nextEdge
  let lastSeg ← jsLast segs
  let firstSeg ← jsFirst nextSegs
  pure (lastSeg.size, (lastSeg.offset + lastSeg.size - c == 1) && (firstSeg.size == 1))

/-- The corner-gap phase of `validate`: the loop `for (let ei = 0; ei < 4; ei++)`
pairing edge `ei` with edge `(ei + 1) % 4`, followed by the
`lastSegSizes.every(s => s === lastSegSizes[0])` symmetry test.  The source
reaches this loop only when `edges.length === 4`; on any other shape the
indexing would read `undefined` and fault. -/
def cornerPhase (c : Int) : List Edge → Except String ValidationResult
  | [e0, e1, e2, e3] => do
    let d0 ← cornerAt c e0 e1
    let d1 ← cornerAt c e1 e2
    let d2 ← cornerAt c e2 e3
    let d3 ← cornerAt c e3 e0
    let hasCornerGap := d0.2 || d1.2 || d2.2 || d3.2
    let allSameLastSeg := (d1.1 == d0.1) && (d2.1 == d0.1) && (d3.1 == d0.1)
    if hasCornerGap && !allSameLastSeg then
      pure (.fail "1x1 corner gap with asymmetric edges")
    else
      pure .ok
  | _ => .error "TypeError: cannot read property of undefined"

/-- Models `Corona.prototype.validate(allowedSizes = [1, 2, 3, 4])` from the shared
Corona class (the variant with the corner-gap rule): center check, edge-count
check, per-edge checks, corner-gap symmetry rule. -/
def Corona.validate (co : Corona) (allowed : List Int := [1, 2, 3, 4]) :
    Except String ValidationResult :=
  match co.center with
  | none => .ok (.fail "center must be a positive integer")
  | some c =>
    if c ≤ 0 then .ok (.fail "center must be a positive integer")
    else if co.edges.length ≠ 4 then .ok (.fail "edges must have length 4")
    else
      match checkEdges c allowed co.edges with
      | .error e => .error e
      | .ok (some r) => .ok (.fail r)
      | .ok none => cornerPhase c co.edges

/-! ## Decimal rendering of numbers

`natDigsAux` renders a natural number in decimal with explicit fuel so that it
is structurally recursive; `natChars n` supplies fuel `n + 1`, which is always
sufficient.  `intChars` is the JavaScript `Number.prototype.toString()` (base
10) of an integral number. -/

def digitChar : Nat → Char
  | 0 => '0'
  | 1 => '1'
  | 2 => '2'
  | 3 => '3'
  | 4 => '4'
  | 5 => '5'
  | 6 => '6'
  | 7 => '7'
  | 8 => '8'
  | 9 => '9'
  | _ => '*'

def natDigsAux : Nat → Nat → List Char
  | 0, _ => []
  | fuel + 1, n =>
    if n < 10 then [digitChar n]
    else natDigsAux fuel (n / 10) ++ [digitChar (n % 10)]

def natChars (n : Nat) : List Char := natDigsAux (n + 1) n

def intChars : Int → List Char
  | .ofNat n => natChars n
  | .negSucc m => '-' :: natChars (m + 1)

/-! ## Canonical rotation key -/

/-- Models `Array.prototype.join(sep)` for a one-character separator, on the
character lists that embed the joined strings. -/
def joinChar (sep : Char) : List (List Char) → List Char
  | [] => []
  | [p] => p
  | p :: ps => p ++ sep :: joinChar sep ps

/-- Lexicographic comparison of JavaScript strings (by code unit; all strings
compared by the code are ASCII): `lexLe a b` is `a <= b`. -/
def lexLe : List Char → List Char → Bool
  | [], _ => true
  | _ :: _, [] => false
  | a :: as, b :: bs =>
    if a = b then lexLe as bs else decide (a.toNat < b.toNat)

def keyLE (a b : List Char) : Prop := lexLe a b = true

instance : DecidableRel keyLE := fun a b => by
  unfold keyLE; infer_instance

/-- Models `JSON.stringify([seg.size, seg.offset])` for one segment. -/
def segPairChars (s : EdgeSeg) : List Char :=
  '[' :: (intChars s.size ++ ',' :: intChars s.offset) ++ [']']

/-- The inner `edgeKey` of `canonicalRotationEdges`:
`JSON.stringify(sorted.map(seg => [seg.size, seg.offset]))` after sorting the
edge by `(offset, size)`. -/
def edgeKey (e : Edge) : List Char :=
  '[' :: joinChar ',' ((sortSegs e).map segPairChars) ++ [']']

/-- The `keys` array of `canonicalRotationEdges`: for each `k < 4`, the edge
keys of the rotation `[...edges.slice(k), ...edges.slice(0, k)]` joined with
`";"`. -/
def rotKeys (edges : List Edge) : List (List Char) :=
  (List.range 4).map fun k =>
    joinChar ';' ((edges.drop k ++ edges.take k).map edgeKey)

/-- Models `canonicalRotationEdges(edges)`: the lexicographically smallest of the
four rotation keys.  The source sorts the candidate keys and takes index 0;
the empty branch is unreachable because there are always four candidates. -/
def canonicalRotationEdges (edges : List Edge) : List Char :=
  match List.insertionSort keyLE (rotKeys edges) with
  | [] => []
  | k :: _ => k

/-! ## Enumeration for center = 1 -/

/-- The three candidate single-segment edge walks of `enumerateUniqueCoronasCenter1`. -/
def edgeChoices : List Edge := [[⟨2, 0⟩], [⟨3, 0⟩], [⟨4, 0⟩]]

/-- The 81 candidate coronas visited by the four nested loops of
`enumerateUniqueCoronasCenter1`, in loop order (`e0` outermost). -/
def center1Candidates : List Corona :=
  edgeChoices.flatMap fun e0 =>
    edgeChoices.flatMap fun e1 =>
      edgeChoices.flatMap fun e2 =>
        edgeChoices.map fun e3 => ⟨some 1, [e0, e1, e2, e3]⟩

/-- Reading the `.ok` field of the validation result.  `validate` never
faults (see `Corona.validate_total`), so the `.error` branch is unreachable. -/
def resultOk : Except String ValidationResult → Bool
  | .ok .ok => true
  | _ => false

/-- The loop body of `enumerateUniqueCoronasCenter1`: skip the candidate if
validation fails or its canonical key was already seen, otherwise record the
key and append the corona. -/
def enumStep (acc : List (List Char) × List Corona) (cor : Corona) :
    List (List Char) × List Corona :=
  if !resultOk (cor.validate [1, 2, 3, 4]) then acc
  else
    let key := canonicalRotationEdges cor.edges
    if key ∈ acc.1 then acc
    else (key :: acc.1, acc.2 ++ [cor])

/-- Models `enumerateUniqueCoronasCenter1()` from the enumeration framework. -/
def enumerateUniqueCoronasCenter1 : List Corona :=
  (center1Candidates.foldl enumStep ([], [])).2

/-! ## Compact text format -/

/-- The whitespace class of the JavaScript regular expression `\s`
(restricted to the characters that can appear in this codec's inputs). -/
def jsWs (c : Char) : Bool :=
  c = ' ' || c = '\t' || c = '\n' || c = '\r' || c = '\x0b' || c = '\x0c'

/-- Models `s.trim().replace(/\s/g, "")`: both steps only delete whitespace, and the
global replace deletes every whitespace character, so the composition is a
filter. -/
def stripWs (s : List Char) : List Char := s.filter fun c => !jsWs c

/-- Models `String.prototype.split(sep)` for a one-character separator. -/
def splitChar (sep : Char) : List Char → List (List Char)
  | [] => [[]]
  | c :: rest =>
    let r := splitChar sep rest
    if c = sep then [] :: r
    else
      match r with
      | h :: t => (c :: h) :: t
      | [] => [[c]]

/-- Decimal digit accumulation: the value `parseInt` builds from a digit run. -/
def parseDigits (acc : Nat) : List Char → Nat
  | [] => acc
  | c :: rest => parseDigits (acc * 10 + (c.toNat - '0'.toNat)) rest

/-- Models `parseInt(s, 10)` on whitespace-free text: an optional sign followed by
the longest leading digit run; `none` is the `NaN` result when no digit is
found.  (`parseInt` ignores any trailing non-digit characters.) -/
def jsParseInt10 (s : List Char) : Option Int :=
  let neg := decide (s.head? = some '-')
  let hasSign := neg || decide (s.head? = some '+')
  let l := if hasSign then s.tail else s
  let digs := l.takeWhile Char.isDigit
  if digs.isEmpty then none
  else some ((if neg then -1 else 1) * (parseDigits 0 digs : Int))

/-- Matching one token against `/^(\d+)\^(-?\d+)$/` and building the segment
`{size: parseInt(m[1], 10), offset: parseInt(m[2], 10)}`; `none` when the
token does not match. -/
def parseSegTok (tok : List Char) : Option EdgeSeg :=
  let ds := tok.takeWhile Char.isDigit
  if ds.isEmpty then none
  else
    let rest := tok.drop ds.length
    if rest.head? = some '^' then
      let r2 := rest.tail
      let neg := decide (r2.head? = some '-')
      let r3 := if neg then r2.tail else r2
      let ds2 := r3.takeWhile Char.isDigit
      if ds2.isEmpty then none
      else if r3.drop ds2.length ≠ [] then none
      else some ⟨(parseDigits 0 ds : Int), (if neg then -1 else 1) * (parseDigits 0 ds2 : Int)⟩
    else none

/-- The token loop for one edge part: split on `","`, match every token, throw
`Bad segment token: <tok>` on the first failure. -/
def parseSegs : List (List Char) → Except String (List EdgeSeg)
  | [] => .ok []
  | t :: rest =>
    match parseSegTok t with
    | none => .error ("Bad segment token: " ++ t.asString)
    | some seg => do
      let segs ← parseSegs rest
      pure (seg :: segs)

def parseEdgeTxt (txt : List Char) : Except String (List EdgeSeg) :=
  parseSegs (splitChar ',' txt)

/-- Models `Corona.fromCompact(s)`: strip whitespace, split on `"|"`, require five
parts, parse the center with `parseInt` and each edge part token by token. -/
def Corona.fromCompact (s : List Char) : Except String Corona :=
  let text := stripWs s
  match splitChar '|' text with
  | [p0, p1, p2, p3, p4] => do
    let e1 ← parseEdgeTxt p1
    let e2 ← parseEdgeTxt p2
    let e3 ← parseEdgeTxt p3
    let e4 ← parseEdgeTxt p4
    pure ⟨jsParseInt10 p0, [e1, e2, e3, e4]⟩
  | _ => .error "Expected center + 4 edges"

/-- The characters of `String(center)`: decimal digits for an integral
number, `"NaN"` for the non-integer center that `parseInt` can produce. -/
def centerChars : Option Int → List Char
  | some c => intChars c
  | none => ['N', 'a', 'N']

/-- One segment printed as `size^offset`. -/
def segChars (s : EdgeSeg) : List Char :=
  intChars s.size ++ '^' :: intChars s.offset

/-- Models `Corona.prototype.toCompact()`: the center and the four edges joined with
`"|"`, each edge's segments sorted by `(offset, size)` and joined with `","`. -/
def Corona.toCompact (co : Corona) : List Char :=
  joinChar '|'
    (centerChars co.center ::
      co.edges.map fun e => joinChar ',' ((sortSegs e).map segChars))

/-! ## Specification-side validators

`specValidate` renders §4.1 of the specification as an explicit ordered list
of checks from which the first failure is taken — with the per-segment
legality checks (size, then offset, then center-alignment) interleaved
segment by segment, which is the order the code actually uses.
`claimedValidate` renders the check order exactly as claim C4 words it: the
whole-edge size/offset pass (b) strictly before the whole-edge
center-alignment pass (c).  The two differ, and only `specValidate` agrees
with `Corona.validate`. -/

/-- First failing check of an ordered check list. -/
def firstFailure : List (Option String) → Option String
  | [] => none
  | some r :: _ => some r
  | none :: rest => firstFailure rest

/-- One segment's legality checks in code order: size, offset, alignment. -/
def segCheck (c : Int) (allowed : List Int) (s : EdgeSeg) : Option String :=
  if s.size ∉ allowed ∨ s.size ≤ 0 then some "invalid segment size"
  else if s.offset < 0 ∨ c < s.offset then some "offset out of range"
  else if s.size = c ∧ s.offset = 0 then some "not unilateral (center-sized aligned)"
  else none

/-- The consecutive sorted pairs of an edge. -/
def consPairs (segs : List EdgeSeg) : List (EdgeSeg × EdgeSeg) :=
  segs.zip segs.tail

/-- The ordered per-edge check list of §4.1(3), with rule (b) and rule (c)
evaluated segment by segment. -/
def specEdgeChecks (c : Int) (allowed : List Int) (e : Edge) : List (Option String) :=
  let segs := sortSegs e
  (if e = [] then some "edge empty" else none)
    :: segs.map (segCheck c allowed)
    ++ [if (consPairs segs).any (fun p => p.1.size = p.2.size) then
          some "not unilateral (equal adjacent sizes)"
        else none,
        match segs.head? with
        | some s0 => if s0.offset ≠ 0 then some "edge does not start at 0" else none
        | none => none,
        if (consPairs segs).any (fun p => p.2.offset ≠ p.1.offset + p.1.size) then
          some "invalid edge walk"
        else none,
        match segs.getLast? with
        | some sl => if sl.offset + sl.size < c then some "edge does not reach center length" else none
        | none => none]

/-- The 1×1-corner-gap predicate of §4.1(4) at the corner between an edge and
its cyclic successor: `overhang == 1` and the successor starts with a unit
segment; vacuously false on a malformed (empty) edge, which rule 4 never
reaches. -/
def cornerGapAt (c : Int) (e next : Edge) : Bool :=
  match (sortByOffset e).getLast?, (sortByOffset next).head? with
  | some l, some f => l.offset + l.size - c = 1 && f.size = 1
  | _, _ => false

/-- The last-segment size of an edge after sorting by offset. -/
def lastSize (e : Edge) : Option Int :=
  ((sortByOffset e).getLast?).map (·.size)

/-- Rule 4 of section 4.1 as a single check: a 1×1 gap at any of the four corners (edge `i`
against edge `(i + 1) mod 4`) demands that the four last-segment sizes be
identical. -/
def specCornerCheck (c : Int) (edges : List Edge) : Option String :=
  match edges with
  | [e0, e1, e2, e3] =>
    let gap := cornerGapAt c e0 e1 || cornerGapAt c e1 e2 || cornerGapAt c e2 e3 ||
      cornerGapAt c e3 e0
    let sizes := [lastSize e0, lastSize e1, lastSize e2, lastSize e3]
    if gap && !(sizes.all fun s => s = sizes.headD none) then
      some "1x1 corner gap with asymmetric edges"
    else none
  | _ => none

/-- Section 4.1 rendered as an ordered list of checks with the first failure taken
(rules (b) and (c) interleaved per segment, as amended claim C4 states). -/
def specValidate (co : Corona) (allowed : List Int) : ValidationResult :=
  let checks :=
    (match co.center with
     | none => some "center must be a positive integer"
     | some c => if c ≤ 0 then some "center must be a positive integer" else none)
      :: (if co.edges.length ≠ 4 then some "edges must have length 4" else none)
      :: (co.edges.flatMap fun e => specEdgeChecks (co.center.getD 0) allowed e)
      ++ [specCornerCheck (co.center.getD 0) co.edges]
  match firstFailure checks with
  | some r => .fail r
  | none => .ok

/-- The per-edge check list in the order claim C4 states it: the whole-edge
size/offset pass (b) strictly before the whole-edge center-alignment pass (c). -/
def claimedEdgeChecks (c : Int) (allowed : List Int) (e : Edge) : List (Option String) :=
  let segs := sortSegs e
  (if e = [] then some "edge empty" else none)
    :: segs.map (fun s =>
        if s.size ∉ allowed ∨ s.size ≤ 0 then some "invalid segment size"
        else if s.offset < 0 ∨ c < s.offset then some "offset out of range"
        else none)
    ++ segs.map (fun s =>
        if s.size = c ∧ s.offset = 0 then some "not unilateral (center-sized aligned)" else none)
    ++ [if (consPairs segs).any (fun p => p.1.size = p.2.size) then
          some "not unilateral (equal adjacent sizes)"
        else none,
        match segs.head? with
        | some s0 => if s0.offset ≠ 0 then some "edge does not start at 0" else none
        | none => none,
        if (consPairs segs).any (fun p => p.2.offset ≠ p.1.offset + p.1.size) then
          some "invalid edge walk"
        else none,
        match segs.getLast? with
        | some sl => if sl.offset + sl.size < c then some "edge does not reach center length" else none
        | none => none]

/-- The validator with the check order exactly as claim C4 words it. -/
def claimedValidate (co : Corona) (allowed : List Int) : ValidationResult :=
  let checks :=
    (match co.center with
     | none => some "center must be a positive integer"
     | some c => if c ≤ 0 then some "center must be a positive integer" else none)
      :: (if co.edges.length ≠ 4 then some "edges must have length 4" else none)
      :: (co.edges.flatMap fun e => claimedEdgeChecks (co.center.getD 0) allowed e)
      ++ [specCornerCheck (co.center.getD 0) co.edges]
  match firstFailure checks with
  | some r => .fail r
  | none => .ok

/-! ## Order properties of the key comparison -/

instance : IsTotal (List Char) keyLE := ⟨by
  intro a b
  unfold keyLE
  induction a generalizing b with
  | nil => left; rfl
  | cons x as ih =>
    cases b with
    | nil => right; rfl
    | cons y bs =>
      by_cases hxy : x = y
      · subst hxy
        simpa [lexLe] using ih bs
      · have hne : x.toNat ≠ y.toNat := fun h => hxy (Char.ext (UInt32.toNat.inj h))
        simp only [lexLe, if_neg hxy, if_neg (Ne.symm hxy), decide_eq_true_eq]
        omega⟩

instance : IsTrans (List Char) keyLE := ⟨by
  intro a b c hab hbc
  unfold keyLE at *
  induction a generalizing b c with
  | nil => rfl
  | cons x as ih =>
    cases b with
    | nil => simp [lexLe] at hab
    | cons y bs =>
      cases c with
      | nil => simp [lexLe] at hbc
      | cons z cs =>
        by_cases hxy : x = y <;> by_cases hyz : y = z
        · subst hxy; subst hyz
          simp only [lexLe, if_pos rfl] at *
          exact ih bs cs hab hbc
        · subst hxy
          simp only [lexLe, if_pos rfl, if_neg hyz] at *
          simpa [lexLe, if_neg hyz] using hbc
        · subst hyz
          simp only [lexLe, if_pos rfl, if_neg hxy] at *
          simpa [lexLe, if_neg hxy] using hab
        · simp only [lexLe, if_neg hxy, if_neg hyz, decide_eq_true_eq] at hab hbc
          have hxz : x.toNat < z.toNat := Nat.lt_trans hab hbc
          have hne : x ≠ z := by
            intro h
            subst h
            omega
          simp only [lexLe, if_neg hne, decide_eq_true_eq]
          exact hxz⟩

instance : IsAntisymm (List Char) keyLE := ⟨by
  intro a b hab hba
  unfold keyLE at *
  induction a generalizing b with
  | nil =>
    cases b with
    | nil => rfl
    | cons y bs => simp [lexLe] at hba
  | cons x as ih =>
    cases b with
    | nil => simp [lexLe] at hab
    | cons y bs =>
      by_cases hxy : x = y
      · subst hxy
        simp only [lexLe, if_pos rfl] at hab hba
        rw [ih bs hab hba]
      · simp only [lexLe, if_neg hxy, if_neg (Ne.symm hxy), decide_eq_true_eq] at hab hba
        omega⟩

/-- The two format errors of the compact reader, as claim C6 words them. -/
def compactFormatBad (s : List Char) : Prop :=
  (splitChar '|' (stripWs s)).length ≠ 5 ∨
    ∃ p ∈ (splitChar '|' (stripWs s)).tail, ∃ t ∈ splitChar ',' p, parseSegTok t = none

/-- Well-formed segment data in the sense of claim C5: positive integer
center, four non-empty edges, positive integer sizes. -/
def wellFormedData (co : Corona) : Prop :=
  (∃ c : Int, co.center = some c ∧ 0 < c) ∧ co.edges.length = 4 ∧
    ∀ e ∈ co.edges, e ≠ [] ∧ ∀ s ∈ e, 0 < s.size

/-- The coronas whose serialization survives re-parsing: exactly four
non-empty edges whose sizes are representable by the `\d+` token pattern. -/
def compactWF (co : Corona) : Prop :=
  co.edges.length = 4 ∧ ∀ e ∈ co.edges, e ≠ [] ∧ ∀ s ∈ e, 0 ≤ s.size

/-! ## Helper lemmas: the validator equals the ordered-check rendition -/

theorem firstFailure_append (A B : List (Option String)) :
    firstFailure (A ++ B) =
      match firstFailure A with
      | some r => some r
      | none => firstFailure B := by
  induction A with
  | nil => simp [firstFailure]
  | cons h t ih =>
    cases h with
    | none => simpa [firstFailure] using ih
    | some r => simp [firstFailure]

theorem segScan_eq_firstFailure (c : Int) (allowed : List Int) (segs : List EdgeSeg) :
    segScan c allowed segs = firstFailure (segs.map (segCheck c allowed)) := by
  induction segs with
  | nil => simp [segScan, firstFailure]
  | cons s rest ih =>
    simp only [segScan, segCheck, List.map_cons]
    split
    · simp [firstFailure]
    · split
      · simp [firstFailure]
      · split
        · simp [firstFailure]
        · simpa [firstFailure] using ih


theorem consPairs_cons_cons (a b : EdgeSeg) (rest : List EdgeSeg) :
    consPairs (a :: b :: rest) = (a, b) :: consPairs (b :: rest) := rfl

theorem adjEqScan_eq_any (segs : List EdgeSeg) :
    adjEqScan segs = (consPairs segs).any fun p => p.1.size = p.2.size := by
  induction segs with
  | nil => rfl
  | cons a rest ih =>
    cases rest with
    | nil => rfl
    | cons b rest2 =>
      rw [consPairs_cons_cons, List.any_cons, ← ih]
      show (a.size == b.size || adjEqScan (b :: rest2)) = _
      by_cases h : a.size = b.size <;> simp [h]

theorem walkScan_eq_any (segs : List EdgeSeg) :
    walkScan segs = (consPairs segs).any fun p => p.2.offset ≠ p.1.offset + p.1.size := by
  induction segs with
  | nil => rfl
  | cons a rest ih =>
    cases rest with
    | nil => rfl
    | cons b rest2 =>
      rw [consPairs_cons_cons, List.any_cons, ← ih]
      show (b.offset != a.offset + a.size || walkScan (b :: rest2)) = _
      by_cases h : b.offset = a.offset + a.size <;> simp [h]

theorem sortSegs_eq_nil_iff (e : Edge) : sortSegs e = [] ↔ e = [] := by
  constructor
  · intro h
    have hp := List.perm_insertionSort segLE e
    rw [show List.insertionSort segLE e = sortSegs e from rfl, h] at hp
    exact (List.Perm.nil_eq hp).symm
  · intro h
    subst h
    rfl

theorem firstFailure_none_cons (L : List (Option String)) :
    firstFailure (none :: L) = firstFailure L := rfl

theorem checkEdge_eq_firstFailure (c : Int) (allowed : List Int) (e : Edge) :
    checkEdge c allowed e = .ok (firstFailure (specEdgeChecks c allowed e)) := by
  by_cases he : e = []
  · subst he; rfl
  have hne : e.isEmpty = false := by simp [List.isEmpty_iff, he]
  have hsegs : sortSegs e ≠ [] := by simpa [sortSegs_eq_nil_iff] using he
  unfold checkEdge specEdgeChecks
  simp only [hne, Bool.false_eq_true, if_false, if_neg he]
  rw [segScan_eq_firstFailure, firstFailure_append, firstFailure_none_cons]
  generalize hg : sortSegs e = segs at hsegs
  clear hg hne he
  obtain ⟨s0, segs', rfl⟩ := List.exists_cons_of_ne_nil hsegs
  have hsl : ∃ sl, (s0 :: segs').getLast? = some sl :=
    ⟨_, List.getLast?_eq_getLast _ (by simp)⟩
  obtain ⟨sl, hsl⟩ := hsl
  cases hscan : firstFailure (List.map (segCheck c allowed) (s0 :: segs')) with
  | some r => rfl
  | none =>
    rw [← adjEqScan_eq_any]
    cases hadj : adjEqScan (s0 :: segs') with
    | true => rfl
    | false =>
      simp only [Bool.false_eq_true, if_false, firstFailure_none_cons, jsFirst,
        bind, Except.bind, firstFailure, List.head?_cons]
      by_cases h0 : s0.offset = 0
      · simp only [h0, ne_eq, not_true_eq_false, if_false, ite_false, ite_true,
          not_false_eq_true, firstFailure_none_cons]
        rw [← walkScan_eq_any]
        cases hwalk : walkScan (s0 :: segs') with
        | true => rfl
        | false =>
          simp only [Bool.false_eq_true, if_false, jsLast, hsl, firstFailure]
          by_cases hcov : sl.offset + sl.size < c
          · simp [hcov, pure, Except.pure, firstFailure]
          · simp [hcov, pure, Except.pure, firstFailure]
      · simp [h0, pure, Except.pure, firstFailure]

theorem checkEdges_eq_firstFailure (c : Int) (allowed : List Int) (es : List Edge) :
    checkEdges c allowed es = .ok (firstFailure (es.flatMap (specEdgeChecks c allowed))) := by
  induction es with
  | nil => rfl
  | cons e rest ih =>
    show (do
        match (← checkEdge c allowed e) with
        | some r => pure (some r)
        | none => checkEdges c allowed rest) = _
    rw [checkEdge_eq_firstFailure, List.flatMap_cons, firstFailure_append]
    cases hf : firstFailure (specEdgeChecks c allowed e) with
    | some r => rfl
    | none =>
      simpa [bind, Except.bind] using ih

/-- If every per-edge check passed, every edge is non-empty. -/
theorem nonempty_of_firstFailure_eq_none (c : Int) (allowed : List Int) (es : List Edge)
    (h : firstFailure (es.flatMap (specEdgeChecks c allowed)) = none) :
    ∀ e ∈ es, e ≠ [] := by
  induction es with
  | nil => simp
  | cons e rest ih =>
    rw [List.flatMap_cons, firstFailure_append] at h
    cases hf : firstFailure (specEdgeChecks c allowed e) with
    | some r => rw [hf] at h; simp at h
    | none =>
      rw [hf] at h
      simp only at h
      intro x hx
      rcases List.mem_cons.mp hx with hx | hx
      · subst hx
        intro hxe
        subst hxe
        simp [specEdgeChecks, firstFailure] at hf
      · exact ih h x hx

theorem sortByOffset_eq_nil_iff (e : Edge) : sortByOffset e = [] ↔ e = [] := by
  constructor
  · intro h
    have hp := List.perm_insertionSort offLE e
    rw [show List.insertionSort offLE e = sortByOffset e from rfl, h] at hp
    exact (List.Perm.nil_eq hp).symm
  · intro h
    subst h
    rfl

theorem int_beq_eq_decide (a b : Int) : (a == b) = decide (a = b) := by
  by_cases h : a = b <;> simp [h]

theorem cornerPhase_eq_specCornerCheck (c : Int) (e0 e1 e2 e3 : Edge)
    (h0 : e0 ≠ []) (h1 : e1 ≠ []) (h2 : e2 ≠ []) (h3 : e3 ≠ []) :
    cornerPhase c [e0, e1, e2, e3] =
      .ok (match specCornerCheck c [e0, e1, e2, e3] with
           | some r => .fail r
           | none => .ok) := by
  have hs0 : sortByOffset e0 ≠ [] := by simpa [sortByOffset_eq_nil_iff] using h0
  have hs1 : sortByOffset e1 ≠ [] := by simpa [sortByOffset_eq_nil_iff] using h1
  have hs2 : sortByOffset e2 ≠ [] := by simpa [sortByOffset_eq_nil_iff] using h2
  have hs3 : sortByOffset e3 ≠ [] := by simpa [sortByOffset_eq_nil_iff] using h3
  obtain ⟨f0, r0, hc0⟩ := List.exists_cons_of_ne_nil hs0
  obtain ⟨f1, r1, hc1⟩ := List.exists_cons_of_ne_nil hs1
  obtain ⟨f2, r2, hc2⟩ := List.exists_cons_of_ne_nil hs2
  obtain ⟨f3, r3, hc3⟩ := List.exists_cons_of_ne_nil hs3
  have hl0 : ∃ l, (sortByOffset e0).getLast? = some l := by
    rw [hc0]; exact ⟨_, List.getLast?_eq_getLast _ (by simp)⟩
  have hl1 : ∃ l, (sortByOffset e1).getLast? = some l := by
    rw [hc1]; exact ⟨_, List.getLast?_eq_getLast _ (by simp)⟩
  have hl2 : ∃ l, (sortByOffset e2).getLast? = some l := by
    rw [hc2]; exact ⟨_, List.getLast?_eq_getLast _ (by simp)⟩
  have hl3 : ∃ l, (sortByOffset e3).getLast? = some l := by
    rw [hc3]; exact ⟨_, List.getLast?_eq_getLast _ (by simp)⟩
  obtain ⟨l0, hl0⟩ := hl0
  obtain ⟨l1, hl1⟩ := hl1
  obtain ⟨l2, hl2⟩ := hl2
  obtain ⟨l3, hl3⟩ := hl3
  have hh0 : (sortByOffset e0).head? = some f0 := by rw [hc0]; rfl
  have hh1 : (sortByOffset e1).head? = some f1 := by rw [hc1]; rfl
  have hh2 : (sortByOffset e2).head? = some f2 := by rw [hc2]; rfl
  have hh3 : (sortByOffset e3).head? = some f3 := by rw [hc3]; rfl
  have hca0 : cornerAt c e0 e1 = .ok (l0.size, (l0.offset + l0.size - c == 1) && (f1.size == 1)) := by
    rw [cornerAt, jsLast, hl0]
    rw [show jsFirst (sortByOffset e1) = .ok f1 by rw [hc1]; rfl]
    rfl
  have hca1 : cornerAt c e1 e2 = .ok (l1.size, (l1.offset + l1.size - c == 1) && (f2.size == 1)) := by
    rw [cornerAt, jsLast, hl1]
    rw [show jsFirst (sortByOffset e2) = .ok f2 by rw [hc2]; rfl]
    rfl
  have hca2 : cornerAt c e2 e3 = .ok (l2.size, (l2.offset + l2.size - c == 1) && (f3.size == 1)) := by
    rw [cornerAt, jsLast, hl2]
    rw [show jsFirst (sortByOffset e3) = .ok f3 by rw [hc3]; rfl]
    rfl
  have hca3 : cornerAt c e3 e0 = .ok (l3.size, (l3.offset + l3.size - c == 1) && (f0.size == 1)) := by
    rw [cornerAt, jsLast, hl3]
    rw [show jsFirst (sortByOffset e0) = .ok f0 by rw [hc0]; rfl]
    rfl
  have hgap0 : cornerGapAt c e0 e1 = ((l0.offset + l0.size - c == 1) && (f1.size == 1)) := by
    rw [cornerGapAt, hl0, hh1]
    simp [int_beq_eq_decide]
  have hgap1 : cornerGapAt c e1 e2 = ((l1.offset + l1.size - c == 1) && (f2.size == 1)) := by
    rw [cornerGapAt, hl1, hh2]
    simp [int_beq_eq_decide]
  have hgap2 : cornerGapAt c e2 e3 = ((l2.offset + l2.size - c == 1) && (f3.size == 1)) := by
    rw [cornerGapAt, hl2, hh3]
    simp [int_beq_eq_decide]
  have hgap3 : cornerGapAt c e3 e0 = ((l3.offset + l3.size - c == 1) && (f0.size == 1)) := by
    rw [cornerGapAt, hl3, hh0]
    simp [int_beq_eq_decide]
  have hlsz0 : lastSize e0 = some l0.size := by rw [lastSize, hl0]; rfl
  have hlsz1 : lastSize e1 = some l1.size := by rw [lastSize, hl1]; rfl
  have hlsz2 : lastSize e2 = some l2.size := by rw [lastSize, hl2]; rfl
  have hlsz3 : lastSize e3 = some l3.size := by rw [lastSize, hl3]; rfl
  have hspec : specCornerCheck c [e0, e1, e2, e3] =
      (if (cornerGapAt c e0 e1 || cornerGapAt c e1 e2 || cornerGapAt c e2 e3 ||
            cornerGapAt c e3 e0) &&
          !((l1.size == l0.size) && (l2.size == l0.size) && (l3.size == l0.size))
       then some "1x1 corner gap with asymmetric edges" else none) := by
    rw [specCornerCheck]
    rw [hlsz0, hlsz1, hlsz2, hlsz3]
    simp only [List.all_cons, List.all_nil, List.headD_cons, Option.some.injEq,
      decide_eq_true_eq]
    congr 1
    by_cases a1 : l1.size = l0.size <;>
      by_cases a2 : l2.size = l0.size <;>
        by_cases a3 : l3.size = l0.size <;>
          simp [a1, a2, a3, int_beq_eq_decide]
  rw [hspec]
  rw [cornerPhase]
  simp only [hca0, hca1, hca2, hca3, bind, Except.bind, hgap0, hgap1, hgap2, hgap3]
  split <;> rename_i hB <;> simp [hB, pure, Except.pure]

/-- The workhorse equivalence: `validate` never faults and computes exactly
the first failing check of the ordered §4.1 check list (with the per-segment
legality rules interleaved as the code interleaves them). -/
theorem validate_eq_specValidate (co : Corona) (allowed : List Int) :
    co.validate allowed = .ok (specValidate co allowed) := by
  rcases co with ⟨center, edges⟩
  cases center with
  | none => rfl
  | some c =>
    show Corona.validate ⟨some c, edges⟩ allowed = _
    rw [Corona.validate, specValidate]
    by_cases hc : c ≤ 0
    · simp [hc, firstFailure]
    · by_cases hlen : edges.length = 4
      · simp only [hc, ite_false, if_false, Option.getD_some, hlen, ne_eq,
          not_true_eq_false, List.cons_append, firstFailure_none_cons]
        rw [checkEdges_eq_firstFailure]
        rw [firstFailure_append]
        cases hff : firstFailure (edges.flatMap fun e => specEdgeChecks c allowed e) with
        | some r => simp [firstFailure]
        | none =>
          have hne : ∀ e ∈ edges, e ≠ [] := by
            refine nonempty_of_firstFailure_eq_none c allowed edges ?_
            simpa using hff
          simp only []
          match edges, hlen, hne with
          | [e0, e1, e2, e3], _, hne =>
            rw [cornerPhase_eq_specCornerCheck c e0 e1 e2 e3
              (hne e0 (by simp)) (hne e1 (by simp)) (hne e2 (by simp)) (hne e3 (by simp))]
            cases specCornerCheck c [e0, e1, e2, e3] <;> simp [firstFailure]
      · simp [hc, hlen, firstFailure]

theorem insertionSort_keyLE_congr {l1 l2 : List (List Char)} (h : l1.Perm l2) :
    List.insertionSort keyLE l1 = List.insertionSort keyLE l2 :=
  List.eq_of_perm_of_sorted
    ((List.perm_insertionSort keyLE l1).trans (h.trans (List.perm_insertionSort keyLE l2).symm))
    (List.sorted_insertionSort keyLE l1)
    (List.sorted_insertionSort keyLE l2)

theorem canonical_congr (X Y : List Edge) (hp : (rotKeys X).Perm (rotKeys Y)) :
    canonicalRotationEdges X = canonicalRotationEdges Y := by
  rw [canonicalRotationEdges, canonicalRotationEdges, insertionSort_keyLE_congr hp]

theorem rotKeys_four (a b c d : Edge) :
    rotKeys [a, b, c, d] =
      [joinChar ';' [edgeKey a, edgeKey b, edgeKey c, edgeKey d],
       joinChar ';' [edgeKey b, edgeKey c, edgeKey d, edgeKey a],
       joinChar ';' [edgeKey c, edgeKey d, edgeKey a, edgeKey b],
       joinChar ';' [edgeKey d, edgeKey a, edgeKey b, edgeKey c]] := rfl

theorem perm_rot1 {α : Type} (w x y z : α) : ([x, y, z, w] : List α).Perm [w, x, y, z] := by
  have h := @List.perm_append_comm α [x, y, z] [w]
  simpa using h

theorem perm_rot2 {α : Type} (w x y z : α) : ([y, z, w, x] : List α).Perm [w, x, y, z] := by
  have h := @List.perm_append_comm α [y, z] [w, x]
  simpa using h

theorem perm_rot3 {α : Type} (w x y z : α) : ([z, w, x, y] : List α).Perm [w, x, y, z] := by
  have h := @List.perm_append_comm α [z] [w, x, y]
  simpa using h

theorem canonical_rotation_helper (edges : List Edge) (k : Nat)
    (h4 : edges.length = 4) (hk : k < 4) :
    canonicalRotationEdges (edges.drop k ++ edges.take k) = canonicalRotationEdges edges := by
  match edges, h4 with
  | [a, b, c, d], _ =>
    match k, hk with
    | 0, _ =>
      rfl
    | 1, _ =>
      refine canonical_congr _ _ ?_
      rw [show ([a, b, c, d].drop 1 ++ [a, b, c, d].take 1 : List Edge) = [b, c, d, a] from rfl]
      rw [rotKeys_four, rotKeys_four]
      exact perm_rot1 _ _ _ _
    | 2, _ =>
      refine canonical_congr _ _ ?_
      rw [show ([a, b, c, d].drop 2 ++ [a, b, c, d].take 2 : List Edge) = [c, d, a, b] from rfl]
      rw [rotKeys_four, rotKeys_four]
      exact perm_rot2 _ _ _ _
    | 3, _ =>
      refine canonical_congr _ _ ?_
      rw [show ([a, b, c, d].drop 3 ++ [a, b, c, d].take 3 : List Edge) = [d, a, b, c] from rfl]
      rw [rotKeys_four, rotKeys_four]
      exact perm_rot3 _ _ _ _

/-! ## Decimal rendering: basic properties -/

theorem digitChar_isDigit {d : Nat} (h : d < 10) : (digitChar d).isDigit = true := by
  interval_cases d <;> rfl

theorem digitChar_toNat {d : Nat} (h : d < 10) : (digitChar d).toNat = 48 + d := by
  interval_cases d <;> rfl

theorem natDigsAux_fuel (f₁ f₂ n : Nat) (h₁ : n < f₁) (h₂ : n < f₂) :
    natDigsAux f₁ n = natDigsAux f₂ n := by
  induction n using Nat.strong_induction_on generalizing f₁ f₂ with
  | _ n ih =>
    match f₁, h₁, f₂, h₂ with
    | g₁ + 1, h₁, g₂ + 1, h₂ =>
      by_cases hn : n < 10
      · simp [natDigsAux, hn]
      · have hpos : 0 < n := by omega
        have hdiv : n / 10 < n := Nat.div_lt_self hpos (by norm_num)
        simp only [natDigsAux, hn, if_false]
        rw [ih (n / 10) hdiv (g₁) (g₂) (by omega) (by omega)]

theorem natChars_eq (n : Nat) :
    natChars n = if n < 10 then [digitChar n] else natChars (n / 10) ++ [digitChar (n % 10)] := by
  by_cases hn : n < 10
  · simp [natChars, natDigsAux, hn]
  · have hpos : 0 < n := by omega
    rw [if_neg hn]
    show natDigsAux (n + 1) n = natDigsAux (n / 10 + 1) (n / 10) ++ [digitChar (n % 10)]
    rw [show natDigsAux (n + 1) n =
        if n < 10 then [digitChar n] else natDigsAux n (n / 10) ++ [digitChar (n % 10)] from rfl]
    rw [if_neg hn]
    rw [natDigsAux_fuel n (n / 10 + 1) (n / 10)
      (by have := Nat.div_lt_self hpos (show 1 < 10 by norm_num); omega) (by omega)]

theorem natChars_ne_nil (n : Nat) : natChars n ≠ [] := by
  rw [natChars_eq]
  by_cases hn : n < 10 <;> simp [hn]

theorem natChars_digits (n : Nat) : ∀ c ∈ natChars n, c.isDigit = true := by
  induction n using Nat.strong_induction_on with
  | _ n ih =>
    rw [natChars_eq]
    by_cases hn : n < 10
    · simp only [hn, if_pos]
      intro c hc
      rw [List.mem_singleton] at hc
      subst hc
      exact digitChar_isDigit hn
    · have hpos : 0 < n := by omega
      have hdiv : n / 10 < n := Nat.div_lt_self hpos (by norm_num)
      simp only [hn, if_false]
      intro c hc
      rcases List.mem_append.mp hc with hc | hc
      · exact ih (n / 10) hdiv c hc
      · rw [List.mem_singleton] at hc
        subst hc
        exact digitChar_isDigit (Nat.mod_lt n (by norm_num))

theorem parseDigits_nil (acc : Nat) : parseDigits acc [] = acc := rfl

theorem parseDigits_cons (acc : Nat) (c : Char) (rest : List Char) :
    parseDigits acc (c :: rest) = parseDigits (acc * 10 + (c.toNat - '0'.toNat)) rest := rfl

theorem zeroChar_toNat : '0'.toNat = 48 := rfl

theorem parseDigits_append (acc : Nat) (l₁ l₂ : List Char) :
    parseDigits acc (l₁ ++ l₂) = parseDigits (parseDigits acc l₁) l₂ := by
  induction l₁ generalizing acc with
  | nil => rfl
  | cons c rest ih =>
    show parseDigits (acc * 10 + (c.toNat - '0'.toNat)) (rest ++ l₂) =
      parseDigits (parseDigits acc (c :: rest)) l₂
    rw [ih]
    rfl

theorem parseDigits_natChars_acc (acc n : Nat) :
    parseDigits acc (natChars n) = acc * 10 ^ (natChars n).length + n := by
  induction n using Nat.strong_induction_on generalizing acc with
  | _ n ih =>
    rw [natChars_eq]
    by_cases hn : n < 10
    · rw [if_pos hn]
      rw [parseDigits_cons, parseDigits_nil, digitChar_toNat hn, zeroChar_toNat,
        List.length_singleton, pow_one]
      omega
    · rw [if_neg hn]
      have hpos : 0 < n := by omega
      have hdiv : n / 10 < n := Nat.div_lt_self hpos (by norm_num)
      rw [parseDigits_append, ih (n / 10) hdiv acc]
      rw [parseDigits_cons, parseDigits_nil,
        digitChar_toNat (Nat.mod_lt n (by norm_num) : n % 10 < 10), zeroChar_toNat,
        List.length_append, List.length_singleton, pow_succ, ← mul_assoc]
      have hdm := Nat.div_add_mod n 10
      generalize acc * 10 ^ (natChars (n / 10)).length = M
      omega

theorem parseDigits_natChars (n : Nat) : parseDigits 0 (natChars n) = n := by
  simpa using parseDigits_natChars_acc 0 n

/-! ## Character classes of the serialized output -/

theorem digit_ne {c : Char} (h : c.isDigit = true) {d : Char} (hd : d.isDigit = false) :
    c ≠ d := by
  intro he
  subst he
  rw [h] at hd
  cases hd

theorem jsWs_false_of_digit {c : Char} (h : c.isDigit = true) : jsWs c = false := by
  have h1 := digit_ne h (show (' ').isDigit = false from rfl)
  have h2 := digit_ne h (show ('\t').isDigit = false from rfl)
  have h3 := digit_ne h (show ('\n').isDigit = false from rfl)
  have h4 := digit_ne h (show ('\r').isDigit = false from rfl)
  have h5 := digit_ne h (show ('\x0b').isDigit = false from rfl)
  have h6 := digit_ne h (show ('\x0c').isDigit = false from rfl)
  simp [jsWs, h1, h2, h3, h4, h5, h6]

theorem mem_intChars {i : Int} {c : Char} (h : c ∈ intChars i) :
    c.isDigit = true ∨ c = '-' := by
  cases i with
  | ofNat n => exact Or.inl (natChars_digits n c h)
  | negSucc m =>
    rcases List.mem_cons.mp h with h | h
    · exact Or.inr h
    · exact Or.inl (natChars_digits (m + 1) c h)

theorem mem_segChars {s : EdgeSeg} {c : Char} (h : c ∈ segChars s) :
    c.isDigit = true ∨ c = '-' ∨ c = '^' := by
  rcases List.mem_append.mp h with h | h
  · rcases mem_intChars h with h | h
    · exact Or.inl h
    · exact Or.inr (Or.inl h)
  · rcases List.mem_cons.mp h with h | h
    · exact Or.inr (Or.inr h)
    · rcases mem_intChars h with h | h
      · exact Or.inl h
      · exact Or.inr (Or.inl h)

theorem mem_centerChars {o : Option Int} {c : Char} (h : c ∈ centerChars o) :
    c.isDigit = true ∨ c = '-' ∨ c = 'N' ∨ c = 'a' := by
  cases o with
  | some i =>
    rcases mem_intChars h with h | h
    · exact Or.inl h
    · exact Or.inr (Or.inl h)
  | none =>
    rcases List.mem_cons.mp h with h | h
    · exact Or.inr (Or.inr (Or.inl h))
    · rcases List.mem_cons.mp h with h | h
      · exact Or.inr (Or.inr (Or.inr h))
      · rcases List.mem_cons.mp h with h | h
        · exact Or.inr (Or.inr (Or.inl h))
        · cases h

/-! ## Join and split -/

theorem joinChar_cons_cons (sep : Char) (p q : List Char) (rest : List (List Char)) :
    joinChar sep (p :: q :: rest) = p ++ sep :: joinChar sep (q :: rest) := rfl

theorem mem_joinChar {sep : Char} {parts : List (List Char)} {c : Char}
    (h : c ∈ joinChar sep parts) : c = sep ∨ ∃ p ∈ parts, c ∈ p := by
  induction parts with
  | nil => cases h
  | cons p rest ih =>
    cases rest with
    | nil => exact Or.inr ⟨p, by simp, h⟩
    | cons q rest2 =>
      rw [joinChar_cons_cons] at h
      rcases List.mem_append.mp h with h | h
      · exact Or.inr ⟨p, by simp, h⟩
      · rcases List.mem_cons.mp h with h | h
        · exact Or.inl h
        · rcases ih h with h | ⟨p', hp', hc'⟩
          · exact Or.inl h
          · exact Or.inr ⟨p', List.mem_cons_of_mem _ hp', hc'⟩

theorem splitChar_ne_nil (sep : Char) (l : List Char) : splitChar sep l ≠ [] := by
  induction l with
  | nil => simp [splitChar]
  | cons c rest ih =>
    simp only [splitChar]
    by_cases hc : c = sep
    · simp [hc]
    · simp only [hc, if_false, ite_false]
      match hsp : splitChar sep rest with
      | [] => simp
      | h :: t => simp

theorem splitChar_cons_sep (sep : Char) (t : List Char) :
    splitChar sep (sep :: t) = [] :: splitChar sep t := by
  simp [splitChar]

theorem splitChar_cons_ne {sep c : Char} (hc : c ≠ sep) (t : List Char)
    {h : List Char} {t' : List (List Char)} (hsp : splitChar sep t = h :: t') :
    splitChar sep (c :: t) = (c :: h) :: t' := by
  simp [splitChar, hc, hsp]

theorem splitChar_no_sep {sep : Char} {l : List Char} (h : sep ∉ l) :
    splitChar sep l = [l] := by
  induction l with
  | nil => rfl
  | cons c rest ih =>
    have hc : c ≠ sep := fun he => h (by simp [he])
    have hr : sep ∉ rest := fun hm => h (List.mem_cons_of_mem _ hm)
    exact splitChar_cons_ne hc rest (ih hr)

theorem splitChar_append {sep : Char} (p l : List Char) (hp : sep ∉ p)
    {h : List Char} {t' : List (List Char)} (hsp : splitChar sep l = h :: t') :
    splitChar sep (p ++ l) = (p ++ h) :: t' := by
  induction p with
  | nil => simpa using hsp
  | cons c p' ih =>
    have hc : c ≠ sep := fun he => hp (by simp [he])
    have hp' : sep ∉ p' := fun hm => hp (List.mem_cons_of_mem _ hm)
    rw [List.cons_append]
    rw [splitChar_cons_ne hc _ (ih hp')]
    rfl

theorem splitChar_joinChar {sep : Char} (parts : List (List Char)) (hne : parts ≠ [])
    (h : ∀ p ∈ parts, sep ∉ p) :
    splitChar sep (joinChar sep parts) = parts := by
  induction parts with
  | nil => exact absurd rfl hne
  | cons p rest ih =>
    cases rest with
    | nil => exact splitChar_no_sep (h p (by simp))
    | cons q rest2 =>
      rw [joinChar_cons_cons]
      have hrec : splitChar sep (joinChar sep (q :: rest2)) = q :: rest2 :=
        ih (by simp) (fun x hx => h x (List.mem_cons_of_mem _ hx))
      have hstep : splitChar sep (sep :: joinChar sep (q :: rest2)) =
          [] :: q :: rest2 := by
        rw [splitChar_cons_sep, hrec]
      rw [splitChar_append p _ (h p (by simp)) hstep]
      simp

theorem stripWs_eq_self {l : List Char} (h : ∀ c ∈ l, jsWs c = false) :
    stripWs l = l := by
  rw [stripWs, List.filter_eq_self]
  intro c hc
  simp [h c hc]

/-! ## Token and integer round-trips -/

theorem takeWhile_all {f : Char → Bool} {l : List Char} (h : ∀ c ∈ l, f c = true) :
    l.takeWhile f = l := by
  induction l with
  | nil => rfl
  | cons c rest ih =>
    rw [List.takeWhile_cons, h c (by simp)]
    simp [ih fun x hx => h x (List.mem_cons_of_mem _ hx)]

theorem takeWhile_all_append {f : Char → Bool} {p : List Char}
    (hp : ∀ c ∈ p, f c = true) {x : Char} (hx : f x = false) (r : List Char) :
    (p ++ x :: r).takeWhile f = p := by
  induction p with
  | nil => simp [List.takeWhile_cons, hx]
  | cons c p' ih =>
    rw [List.cons_append, List.takeWhile_cons, hp c (by simp)]
    simp [ih fun y hy => hp y (List.mem_cons_of_mem _ hy)]

theorem natChars_head_digit (n : Nat) :
    ∃ c cs, natChars n = c :: cs ∧ c.isDigit = true := by
  obtain ⟨c, cs, hc⟩ := List.exists_cons_of_ne_nil (natChars_ne_nil n)
  exact ⟨c, cs, hc, natChars_digits n c (by rw [hc]; simp)⟩

theorem jsParseInt10_natChars_append (n : Nat) (r : List Char)
    (hr : ∀ c, r.head? = some c → c.isDigit = false) :
    jsParseInt10 (natChars n ++ r) = some (n : Int) := by
  obtain ⟨c, cs, hc, hdig⟩ := natChars_head_digit n
  have hne : c ≠ '-' := digit_ne hdig rfl
  have hpl : c ≠ '+' := digit_ne hdig rfl
  have hhead : (natChars n ++ r).head? = some c := by rw [hc]; rfl
  have htw : (natChars n ++ r).takeWhile Char.isDigit = natChars n := by
    cases r with
    | nil => simpa using takeWhile_all (natChars_digits n)
    | cons x rs =>
      exact takeWhile_all_append (natChars_digits n) (hr x rfl) rs
  rw [jsParseInt10]
  simp only [hhead, Option.some.injEq, decide_eq_false hne, decide_eq_false hpl,
    Bool.or_self, Bool.false_or, if_false, ite_false, htw,
    List.isEmpty_iff, Bool.false_eq_true]
  rw [if_neg (by simp [natChars_ne_nil n] : ¬(natChars n = []))]
  rw [parseDigits_natChars]
  simp

theorem jsParseInt10_intChars (i : Int) : jsParseInt10 (intChars i) = some i := by
  cases i with
  | ofNat n =>
    have := jsParseInt10_natChars_append n [] (by intro c hc; cases hc)
    simpa using this
  | negSucc m =>
    show jsParseInt10 ('-' :: natChars (m + 1)) = some (Int.negSucc m)
    obtain ⟨c, cs, hc, hdig⟩ := natChars_head_digit (m + 1)
    have htw : (natChars (m + 1)).takeWhile Char.isDigit = natChars (m + 1) :=
      takeWhile_all (natChars_digits (m + 1))
    rw [jsParseInt10]
    simp only [List.head?_cons, Option.some.injEq, decide_True, Bool.true_or, if_true,
      ite_true, List.tail_cons, htw, List.isEmpty_iff]
    rw [if_neg (by simp [natChars_ne_nil (m + 1)] : ¬(natChars (m + 1) = []))]
    rw [parseDigits_natChars]
    rw [Int.negSucc_eq]
    push_cast
    ring_nf

theorem jsParseInt10_centerChars (o : Option Int) :
    jsParseInt10 (centerChars o) = o := by
  cases o with
  | some i => exact jsParseInt10_intChars i
  | none => decide

theorem parseSegTok_segChars {s : EdgeSeg} (h : 0 ≤ s.size) :
    parseSegTok (segChars s) = some s := by
  obtain ⟨n, hn⟩ : ∃ n : Nat, s.size = (n : Int) := ⟨s.size.toNat, (Int.toNat_of_nonneg h).symm⟩
  have hsc : segChars s = natChars n ++ '^' :: intChars s.offset := by
    rw [segChars, hn]
    rfl
  have htw : (natChars n ++ '^' :: intChars s.offset).takeWhile Char.isDigit = natChars n :=
    takeWhile_all_append (natChars_digits n) (show ('^').isDigit = false from rfl) _
  have hdrop : (natChars n ++ '^' :: intChars s.offset).drop (natChars n).length =
      '^' :: intChars s.offset := List.drop_left _ _
  rw [parseSegTok, hsc]
  simp only [htw, List.isEmpty_iff, hdrop, List.head?_cons, List.tail_cons]
  rw [if_neg (by simp [natChars_ne_nil n] : ¬(natChars n = []))]
  rw [if_pos trivial]
  rw [parseDigits_natChars]
  cases ho : s.offset with
  | ofNat m =>
    have hi : intChars (Int.ofNat m) = natChars m := rfl
    obtain ⟨c, cs, hc, hdig⟩ := natChars_head_digit m
    have hnm : ¬((natChars m).head? = some '-') := by
      rw [hc]
      simp [digit_ne hdig (show ('-').isDigit = false from rfl)]
    have htw2 : (natChars m).takeWhile Char.isDigit = natChars m :=
      takeWhile_all (natChars_digits m)
    rw [hi]
    simp only [decide_eq_false hnm, Bool.false_eq_true, if_false, ite_false, htw2,
      List.isEmpty_iff, List.drop_length, ne_eq, not_true_eq_false]
    rw [if_neg (by simp [natChars_ne_nil m] : ¬(natChars m = []))]
    rw [parseDigits_natChars]
    rcases s with ⟨sz, off⟩
    simp only at hn ho
    rw [hn, ho]
    simp
  | negSucc m =>
    have hi : intChars (Int.negSucc m) = '-' :: natChars (m + 1) := rfl
    have htw2 : (natChars (m + 1)).takeWhile Char.isDigit = natChars (m + 1) :=
      takeWhile_all (natChars_digits (m + 1))
    rw [hi]
    simp only [List.head?_cons, decide_True, if_true, ite_true, List.tail_cons, htw2,
      List.isEmpty_iff, List.drop_length, ne_eq, not_true_eq_false]
    rw [if_neg (by simp [natChars_ne_nil (m + 1)] : ¬(natChars (m + 1) = []))]
    simp only [if_false]
    rw [parseDigits_natChars]
    rcases s with ⟨sz, off⟩
    simp only at hn ho
    rw [hn, ho]
    simp only [Option.some.injEq, EdgeSeg.mk.injEq, true_and]
    rw [Int.negSucc_eq]
    push_cast
    ring_nf

theorem mem_sortSegs {e : Edge} {s : EdgeSeg} : s ∈ sortSegs e ↔ s ∈ e :=
  (List.perm_insertionSort segLE e).mem_iff

theorem sortSegs_idem (e : Edge) : sortSegs (sortSegs e) = sortSegs e :=
  List.Sorted.insertionSort_eq (List.sorted_insertionSort segLE e)

theorem parseSegs_map_segChars (segs : List EdgeSeg) (h : ∀ s ∈ segs, 0 ≤ s.size) :
    parseSegs (segs.map segChars) = .ok segs := by
  induction segs with
  | nil => rfl
  | cons s rest ih =>
    rw [List.map_cons, parseSegs, parseSegTok_segChars (h s (by simp))]
    rw [ih fun x hx => h x (List.mem_cons_of_mem _ hx)]
    rfl

theorem comma_not_in_segChars (s : EdgeSeg) : ',' ∉ segChars s := by
  intro hm
  rcases mem_segChars hm with h | h | h
  · exact absurd h (by decide)
  · cases h
  · cases h

theorem parseEdgeTxt_joinChar (segs : List EdgeSeg) (hne : segs ≠ [])
    (h : ∀ s ∈ segs, 0 ≤ s.size) :
    parseEdgeTxt (joinChar ',' (segs.map segChars)) = .ok segs := by
  rw [parseEdgeTxt, splitChar_joinChar (segs.map segChars) (by simpa using hne)
    (by intro p hp; rw [List.mem_map] at hp; obtain ⟨s, _, rfl⟩ := hp
        exact comma_not_in_segChars s)]
  exact parseSegs_map_segChars segs h

theorem pipe_not_ws_facts :
    jsWs '|' = false ∧ jsWs '-' = false ∧ jsWs '^' = false ∧ jsWs ',' = false ∧
      jsWs 'N' = false ∧ jsWs 'a' = false := by decide

theorem toCompact_no_ws (co : Corona) : ∀ c ∈ Corona.toCompact co, jsWs c = false := by
  intro c hc
  rcases mem_joinChar hc with h | ⟨p, hp, hcp⟩
  · subst h; decide
  · rcases List.mem_cons.mp hp with hp | hp
    · subst hp
      rcases mem_centerChars hcp with h | h | h | h
      · exact jsWs_false_of_digit h
      all_goals (subst h; decide)
    · rw [List.mem_map] at hp
      obtain ⟨e, _, rfl⟩ := hp
      rcases mem_joinChar hcp with h | ⟨q, hq, hcq⟩
      · subst h; decide
      · rw [List.mem_map] at hq
        obtain ⟨s, _, rfl⟩ := hq
        rcases mem_segChars hcq with h | h | h
        · exact jsWs_false_of_digit h
        all_goals (subst h; decide)

theorem pipe_not_in_centerChars (o : Option Int) : '|' ∉ centerChars o := by
  intro hm
  rcases mem_centerChars hm with h | h | h | h
  · exact absurd h (by decide)
  all_goals cases h

theorem pipe_not_in_edgePart (e : Edge) :
    '|' ∉ joinChar ',' ((sortSegs e).map segChars) := by
  intro hm
  rcases mem_joinChar hm with h | ⟨q, hq, hcq⟩
  · cases h
  · rw [List.mem_map] at hq
    obtain ⟨s, _, rfl⟩ := hq
    rcases mem_segChars hcq with h | h | h
    · exact absurd h (by decide)
    all_goals cases h

theorem sortSegs_ne_nil {e : Edge} (h : e ≠ []) : sortSegs e ≠ [] := by
  simpa [sortSegs_eq_nil_iff] using h

/-- Parsing a just-serialized corona: succeeds and returns the same center
with each edge sorted by `(offset, size)`. -/
theorem fromCompact_toCompact (co : Corona) (h4 : co.edges.length = 4)
    (hne : ∀ e ∈ co.edges, e ≠ []) (hsz : ∀ e ∈ co.edges, ∀ s ∈ e, 0 ≤ s.size) :
    Corona.fromCompact (Corona.toCompact co) = .ok ⟨co.center, co.edges.map sortSegs⟩ := by
  rcases co with ⟨center, edges⟩
  match edges, h4 with
  | [e0, e1, e2, e3], _ =>
    rw [Corona.fromCompact]
    rw [stripWs_eq_self (toCompact_no_ws ⟨center, [e0, e1, e2, e3]⟩)]
    rw [show Corona.toCompact ⟨center, [e0, e1, e2, e3]⟩ =
        joinChar '|' [centerChars center,
          joinChar ',' ((sortSegs e0).map segChars),
          joinChar ',' ((sortSegs e1).map segChars),
          joinChar ',' ((sortSegs e2).map segChars),
          joinChar ',' ((sortSegs e3).map segChars)] from rfl]
    rw [splitChar_joinChar _ (by simp) ?pipes]
    case pipes =>
      intro p hp
      rcases List.mem_cons.mp hp with hp | hp
      · subst hp; exact pipe_not_in_centerChars center
      · rcases List.mem_cons.mp hp with hp | hp
        · subst hp; exact pipe_not_in_edgePart e0
        · rcases List.mem_cons.mp hp with hp | hp
          · subst hp; exact pipe_not_in_edgePart e1
          · rcases List.mem_cons.mp hp with hp | hp
            · subst hp; exact pipe_not_in_edgePart e2
            · rcases List.mem_cons.mp hp with hp | hp
              · subst hp; exact pipe_not_in_edgePart e3
              · cases hp
    have he0 := parseEdgeTxt_joinChar (sortSegs e0) (sortSegs_ne_nil (hne e0 (by simp)))
      (fun s hs => hsz e0 (by simp) s (mem_sortSegs.mp hs))
    have he1 := parseEdgeTxt_joinChar (sortSegs e1) (sortSegs_ne_nil (hne e1 (by simp)))
      (fun s hs => hsz e1 (by simp) s (mem_sortSegs.mp hs))
    have he2 := parseEdgeTxt_joinChar (sortSegs e2) (sortSegs_ne_nil (hne e2 (by simp)))
      (fun s hs => hsz e2 (by simp) s (mem_sortSegs.mp hs))
    have he3 := parseEdgeTxt_joinChar (sortSegs e3) (sortSegs_ne_nil (hne e3 (by simp)))
      (fun s hs => hsz e3 (by simp) s (mem_sortSegs.mp hs))
    simp only [he0, he1, he2, he3, bind, Except.bind, pure, Except.pure,
      jsParseInt10_centerChars]
    rfl

/-! ## Analysis of successful and failing parses -/

theorem parseSegTok_some_size {t : List Char} {s : EdgeSeg}
    (h : parseSegTok t = some s) : 0 ≤ s.size := by
  simp only [parseSegTok] at h
  split_ifs at h <;>
    (rw [Option.some.injEq] at h
     subst h
     exact Int.ofNat_nonneg _)

theorem toCompact_map_sortSegs (co : Corona) :
    Corona.toCompact ⟨co.center, co.edges.map sortSegs⟩ = Corona.toCompact co := by
  rw [Corona.toCompact, Corona.toCompact]
  simp only [List.map_map]
  have hm : List.map ((fun e => joinChar ',' (List.map segChars (sortSegs e))) ∘ sortSegs)
      co.edges = List.map (fun e => joinChar ',' (List.map segChars (sortSegs e))) co.edges := by
    apply List.map_congr_left
    intro e _
    simp [Function.comp, sortSegs_idem]
  rw [hm]

theorem parseSegs_error_iff (toks : List (List Char)) :
    (∃ m, parseSegs toks = .error m) ↔ ∃ t ∈ toks, parseSegTok t = none := by
  induction toks with
  | nil => simp [parseSegs]
  | cons t rest ih =>
    rw [parseSegs]
    cases hpt : parseSegTok t with
    | none =>
      simp only []
      constructor
      · intro
        exact ⟨t, by simp, hpt⟩
      · intro
        exact ⟨_, rfl⟩
    | some seg =>
      simp only []
      cases hr : parseSegs rest with
      | error m =>
        simp only [bind, Except.bind]
        constructor
        · intro
          obtain ⟨t', ht', hbad⟩ := ih.mp ⟨m, hr⟩
          exact ⟨t', List.mem_cons_of_mem _ ht', hbad⟩
        · intro
          exact ⟨m, rfl⟩
      | ok segs =>
        simp only [bind, Except.bind, pure, Except.pure]
        constructor
        · rintro ⟨m, hm⟩
          cases hm
        · rintro ⟨t', ht', hbad⟩
          rcases List.mem_cons.mp ht' with ht' | ht'
          · subst ht'
            rw [hpt] at hbad
            cases hbad
          · obtain ⟨m, hm⟩ := ih.mpr ⟨t', ht', hbad⟩
            rw [hm] at hr
            cases hr

theorem parseSegs_ok_or_error (toks : List (List Char)) :
    (∃ segs, parseSegs toks = .ok segs) ∨ (∃ m, parseSegs toks = .error m) := by
  cases h : parseSegs toks with
  | ok segs => exact Or.inl ⟨segs, rfl⟩
  | error m => exact Or.inr ⟨m, rfl⟩

theorem parseSegs_ne_nil {toks : List (List Char)} {segs : List EdgeSeg}
    (hne : toks ≠ []) (h : parseSegs toks = .ok segs) : segs ≠ [] := by
  match toks, hne with
  | t :: rest, _ =>
    rw [parseSegs] at h
    cases hpt : parseSegTok t with
    | none => rw [hpt] at h; cases h
    | some seg =>
      rw [hpt] at h
      simp only [bind, Except.bind] at h
      cases hr : parseSegs rest with
      | error m => rw [hr] at h; cases h
      | ok segs' =>
        rw [hr] at h
        simp only [pure, Except.pure, Except.ok.injEq] at h
        subst h
        simp

theorem parseSegs_sizes {toks : List (List Char)} {segs : List EdgeSeg}
    (h : parseSegs toks = .ok segs) : ∀ s ∈ segs, 0 ≤ s.size := by
  induction toks generalizing segs with
  | nil =>
    rw [parseSegs] at h
    simp only [Except.ok.injEq] at h
    subst h
    simp
  | cons t rest ih =>
    rw [parseSegs] at h
    cases hpt : parseSegTok t with
    | none => rw [hpt] at h; cases h
    | some seg =>
      rw [hpt] at h
      simp only [bind, Except.bind] at h
      cases hr : parseSegs rest with
      | error m => rw [hr] at h; cases h
      | ok segs' =>
        rw [hr] at h
        simp only [pure, Except.pure, Except.ok.injEq] at h
        subst h
        intro s hs
        rcases List.mem_cons.mp hs with hs | hs
        · subst hs
          exact parseSegTok_some_size hpt
        · exact ih hr s hs

theorem fromCompact_parts5 (s : List Char) (p0 p1 p2 p3 p4 : List Char)
    (hsp : splitChar '|' (stripWs s) = [p0, p1, p2, p3, p4]) :
    Corona.fromCompact s = (do
      let e1 ← parseEdgeTxt p1
      let e2 ← parseEdgeTxt p2
      let e3 ← parseEdgeTxt p3
      let e4 ← parseEdgeTxt p4
      pure ⟨jsParseInt10 p0, [e1, e2, e3, e4]⟩) := by
  rw [Corona.fromCompact, hsp]

theorem fromCompact_not5 (s : List Char)
    (h : (splitChar '|' (stripWs s)).length ≠ 5) :
    Corona.fromCompact s = .error "Expected center + 4 edges" := by
  rcases hsp : splitChar '|' (stripWs s) with
    _ | ⟨p0, _ | ⟨p1, _ | ⟨p2, _ | ⟨p3, _ | ⟨p4, _ | ⟨p5, rest⟩⟩⟩⟩⟩⟩ <;>
    (rw [Corona.fromCompact, hsp]
     try (exact absurd (by rw [hsp]; rfl) h))


theorem fromCompact_error_iff (s : List Char) :
    (∃ m, Corona.fromCompact s = .error m) ↔ compactFormatBad s := by
  rw [compactFormatBad]
  by_cases h5 : (splitChar '|' (stripWs s)).length = 5
  · rcases hsp : splitChar '|' (stripWs s) with
      _ | ⟨p0, _ | ⟨p1, _ | ⟨p2, _ | ⟨p3, _ | ⟨p4, _ | ⟨p5, rest⟩⟩⟩⟩⟩⟩ <;>
      rw [hsp] at h5 <;> try simp at h5
    rw [fromCompact_parts5 s p0 p1 p2 p3 p4 hsp]
    simp only [List.tail_cons, List.length_cons, ne_eq]
    cases he1 : parseEdgeTxt p1 with
    | error m =>
      refine iff_of_true ⟨m, by simp [bind, Except.bind, he1]⟩
        (Or.inr ⟨p1, by simp, (parseSegs_error_iff _).mp ⟨m, he1⟩⟩)
    | ok e1 =>
      cases he2 : parseEdgeTxt p2 with
      | error m =>
        refine iff_of_true ⟨m, by simp [bind, Except.bind, he1, he2]⟩
          (Or.inr ⟨p2, by simp, (parseSegs_error_iff _).mp ⟨m, he2⟩⟩)
      | ok e2 =>
        cases he3 : parseEdgeTxt p3 with
        | error m =>
          refine iff_of_true ⟨m, by simp [bind, Except.bind, he1, he2, he3]⟩
            (Or.inr ⟨p3, by simp, (parseSegs_error_iff _).mp ⟨m, he3⟩⟩)
        | ok e3 =>
          cases he4 : parseEdgeTxt p4 with
          | error m =>
            refine iff_of_true ⟨m, by simp [bind, Except.bind, he1, he2, he3, he4]⟩
              (Or.inr ⟨p4, by simp, (parseSegs_error_iff _).mp ⟨m, he4⟩⟩)
          | ok e4 =>
            refine iff_of_false ?_ ?_
            · rintro ⟨m, hm⟩
              simp [bind, Except.bind, he1, he2, he3, he4, pure, Except.pure] at hm
            · rintro (hlen | ⟨p, hp, t, ht, hbad⟩)
              · simp at hlen
              · obtain ⟨m, hm⟩ := (parseSegs_error_iff _).mpr ⟨t, ht, hbad⟩
                rcases (by simpa using hp : p = p1 ∨ p = p2 ∨ p = p3 ∨ p = p4) with
                  rfl | rfl | rfl | rfl
                · rw [show parseEdgeTxt p = parseSegs (splitChar ',' p) from rfl] at he1
                  rw [hm] at he1
                  cases he1
                · rw [show parseEdgeTxt p = parseSegs (splitChar ',' p) from rfl] at he2
                  rw [hm] at he2
                  cases he2
                · rw [show parseEdgeTxt p = parseSegs (splitChar ',' p) from rfl] at he3
                  rw [hm] at he3
                  cases he3
                · rw [show parseEdgeTxt p = parseSegs (splitChar ',' p) from rfl] at he4
                  rw [hm] at he4
                  cases he4
  · exact iff_of_true ⟨_, fromCompact_not5 s h5⟩ (Or.inl h5)

theorem jsFirst_eq_of_head {α : Type} {l : List α} {a : α} (h : l.head? = some a) :
    jsFirst l = .ok a := by
  cases l with
  | nil => cases h
  | cons x t =>
    rw [List.head?_cons, Option.some.injEq] at h
    subst h
    rfl

theorem jsLast_eq_of_getLast {α : Type} {l : List α} {a : α} (h : l.getLast? = some a) :
    jsLast l = .ok a := by
  rw [jsLast, h]

theorem parseSegs_ok_of_all {toks : List (List Char)}
    (h : ∀ t ∈ toks, parseSegTok t ≠ none) : ∃ segs, parseSegs toks = .ok segs := by
  rcases parseSegs_ok_or_error toks with hok | ⟨m, hm⟩
  · exact hok
  · obtain ⟨t, ht, hbad⟩ := (parseSegs_error_iff toks).mp ⟨m, hm⟩
    exact absurd hbad (h t ht)

theorem fromCompact_ok_of_parts (s p0 p1 p2 p3 p4 : List Char)
    (hsp : splitChar '|' (stripWs s) = [p0, p1, p2, p3, p4])
    (ht : ∀ p ∈ [p1, p2, p3, p4], ∀ t ∈ splitChar ',' p, parseSegTok t ≠ none) :
    ∃ es, Corona.fromCompact s = .ok ⟨jsParseInt10 p0, es⟩ := by
  obtain ⟨g1, hg1⟩ := parseSegs_ok_of_all (ht p1 (by simp))
  obtain ⟨g2, hg2⟩ := parseSegs_ok_of_all (ht p2 (by simp))
  obtain ⟨g3, hg3⟩ := parseSegs_ok_of_all (ht p3 (by simp))
  obtain ⟨g4, hg4⟩ := parseSegs_ok_of_all (ht p4 (by simp))
  refine ⟨[g1, g2, g3, g4], ?_⟩
  rw [fromCompact_parts5 s p0 p1 p2 p3 p4 hsp]
  simp only [show ∀ p, parseEdgeTxt p = parseSegs (splitChar ',' p) from fun _ => rfl,
    hg1, hg2, hg3, hg4, bind, Except.bind, pure, Except.pure]

/-! ## Claim theorems -/

/-- C3: for every 4-edge tuple and every k < 4, `canonicalRotationEdges` of
the cyclic rotation by k equals `canonicalRotationEdges` of the original
tuple, so rotated coronas receive equal canonical keys and are deduplicated
together. -/
theorem canonicalRotationEdges_rotation_invariant (edges : List Edge) (k : Nat)
    (h4 : edges.length = 4) (hk : k < 4) :
    canonicalRotationEdges (edges.drop k ++ edges.take k) = canonicalRotationEdges edges :=
  canonical_rotation_helper edges k h4 hk

/-- Witness for C3 at a concrete 4-edge tuple and k = 1. -/
theorem canonicalRotationEdges_rotation_invariant_witness :
    canonicalRotationEdges (([[⟨2, 0⟩], [⟨3, 0⟩], [⟨4, 0⟩], [⟨2, 0⟩]] : List Edge).drop 1 ++
        ([[⟨2, 0⟩], [⟨3, 0⟩], [⟨4, 0⟩], [⟨2, 0⟩]] : List Edge).take 1) =
      canonicalRotationEdges [[⟨2, 0⟩], [⟨3, 0⟩], [⟨4, 0⟩], [⟨2, 0⟩]] :=
  canonicalRotationEdges_rotation_invariant _ 1 (by decide) (by decide)

/-- C4 counterexample: the corona `2|2^0,7^2|3^0|3^0|3^0` refutes the claimed
check order.  Its first edge, sorted, is `[{2,0}, {7,2}]`: the whole-edge
segment-legality pass (b) fails on the second segment (size 7 is not
allowed), so the claim predicts "invalid segment size", but the code checks
each segment fully in turn and returns "not unilateral (center-sized
aligned)" for the first segment. -/
theorem validate_check_order_counterexample :
    Corona.validate ⟨some 2, [[⟨2, 0⟩, ⟨7, 2⟩], [⟨3, 0⟩], [⟨3, 0⟩], [⟨3, 0⟩]]⟩ [1, 2, 3, 4] =
        .ok (.fail "not unilateral (center-sized aligned)") ∧
      claimedValidate ⟨some 2, [[⟨2, 0⟩, ⟨7, 2⟩], [⟨3, 0⟩], [⟨3, 0⟩], [⟨3, 0⟩]]⟩ [1, 2, 3, 4] =
        .fail "invalid segment size" := by
  constructor <;> rfl

/-- C4 (amended): `validate` evaluates the §4.1 checks in order and returns
the reason of the first failing check — with the per-segment legality rules
(size, offset range, center-alignment) interleaved segment by segment in
sorted order, rather than as whole-edge passes (b) then (c). -/
theorem validate_eq_ordered_checks (co : Corona) (allowed : List Int) :
    co.validate allowed = .ok (specValidate co allowed) :=
  validate_eq_specValidate co allowed

/-- C6: `fromCompact` raises exactly when the whitespace-stripped pipe-split
does not have 5 parts or some comma-separated token of the four edge parts
fails the `digits^optionally-signed-digits` pattern; otherwise it returns a
Corona without raising. -/
theorem fromCompact_error_characterization (s : List Char) :
    ((∃ m, Corona.fromCompact s = .error m) ↔ compactFormatBad s) ∧
      (¬compactFormatBad s → ∃ co, Corona.fromCompact s = .ok co) := by
  refine ⟨fromCompact_error_iff s, fun hnb => ?_⟩
  cases h : Corona.fromCompact s with
  | ok co => exact ⟨co, rfl⟩
  | error m => exact absurd ((fromCompact_error_iff s).mp ⟨m, h⟩) hnb

/-- Witness for C6 at a well-formed input (parses) and at a 4-part input
(raises). -/
theorem fromCompact_error_characterization_witness :
    (∃ co, Corona.fromCompact "2|3^0|3^0|3^0|3^0".data = .ok co) ∧
      ∃ m, Corona.fromCompact "2|3^0|3^0|3^0".data = .error m :=
  ⟨(fromCompact_error_characterization "2|3^0|3^0|3^0|3^0".data).2
     (by unfold compactFormatBad; decide),
   (fromCompact_error_characterization "2|3^0|3^0|3^0".data).1.mpr
     (by unfold compactFormatBad; decide)⟩

/-- C9: for every Corona value — any center, any edge list — `validate`
returns a structured result and never raises a fault; in particular the
corner-gap phase, whose reads of first/last segments can fault on malformed
edges, is only reached once every edge passed its per-edge checks, and is
fault-free whenever all four edges are non-empty. -/
theorem validate_never_raises :
    (∀ (co : Corona) (allowed : List Int), ∃ r, co.validate allowed = .ok r) ∧
      (∀ (c : Int) (e0 e1 e2 e3 : Edge), e0 ≠ [] → e1 ≠ [] → e2 ≠ [] → e3 ≠ [] →
        ∃ r, cornerPhase c [e0, e1, e2, e3] = .ok r) := by
  constructor
  · intro co allowed
    exact ⟨specValidate co allowed, validate_eq_specValidate co allowed⟩
  · intro c e0 e1 e2 e3 h0 h1 h2 h3
    rw [cornerPhase_eq_specCornerCheck c e0 e1 e2 e3 h0 h1 h2 h3]
    exact ⟨_, rfl⟩

/-- Witness for C9 at a malformed corona (NaN-like center, an empty edge). -/
theorem validate_never_raises_witness :
    (∃ r, Corona.validate ⟨none, [[], [⟨2, 0⟩]]⟩ [1, 2, 3, 4] = .ok r) ∧
      (∃ r, cornerPhase 1 [[⟨2, 0⟩], [⟨2, 0⟩], [⟨2, 0⟩], [⟨2, 0⟩]] = .ok r) :=
  ⟨validate_never_raises.1 ⟨none, [[], [⟨2, 0⟩]]⟩ [1, 2, 3, 4],
   validate_never_raises.2 1 [⟨2, 0⟩] [⟨2, 0⟩] [⟨2, 0⟩] [⟨2, 0⟩]
     (by decide) (by decide) (by decide) (by decide)⟩

/-- C10: `fromCompact` performs no format check on the center part: any input
whose stripped pipe-split has exactly 5 parts and whose edge tokens all match
the segment pattern parses without raising; when the center part is
non-numeric (`parseInt` gives NaN, modelled `none`) or parses to a
non-positive integer, the resulting Corona is rejected by `validate` with
reason "center must be a positive integer". -/
theorem fromCompact_center_unchecked (s p0 p1 p2 p3 p4 : List Char)
    (hsp : splitChar '|' (stripWs s) = [p0, p1, p2, p3, p4])
    (ht : ∀ p ∈ [p1, p2, p3, p4], ∀ t ∈ splitChar ',' p, parseSegTok t ≠ none)
    (hbad : jsParseInt10 p0 = none ∨ ∃ c, jsParseInt10 p0 = some c ∧ c ≤ 0) :
    ∃ co, Corona.fromCompact s = .ok co ∧ co.center = jsParseInt10 p0 ∧
      ∀ allowed, co.validate allowed = .ok (.fail "center must be a positive integer") := by
  obtain ⟨es, hes⟩ := fromCompact_ok_of_parts s p0 p1 p2 p3 p4 hsp ht
  refine ⟨_, hes, rfl, fun allowed => ?_⟩
  rcases hbad with hb | ⟨c, hb, hc⟩
  · rw [Corona.validate]
    simp [hb]
  · rw [Corona.validate]
    simp [hb, hc]

/-- Witness for C10 at the concrete input `x|2^0|2^0|2^0|2^0`. -/
theorem fromCompact_center_unchecked_witness :
    ∃ co, Corona.fromCompact "x|2^0|2^0|2^0|2^0".data = .ok co ∧
      co.center = jsParseInt10 "x".data ∧
      ∀ allowed, co.validate allowed = .ok (.fail "center must be a positive integer") :=
  fromCompact_center_unchecked "x|2^0|2^0|2^0|2^0".data
    "x".data "2^0".data "2^0".data "2^0".data "2^0".data
    (by decide) (by decide) (by decide)

/-- C7: a valid corona (center 1, single-segment edges of sizes 2, 3, 4, 2)
whose mirror-reflected edge order produces a different canonical key than the
original: reflection is not identified, so the two are not deduplicated
together. -/
theorem canonicalRotationEdges_reflection_sensitive :
    Corona.validate ⟨some 1, [[⟨2, 0⟩], [⟨3, 0⟩], [⟨4, 0⟩], [⟨2, 0⟩]]⟩ [1, 2, 3, 4] = .ok .ok ∧
      canonicalRotationEdges ([[⟨2, 0⟩], [⟨3, 0⟩], [⟨4, 0⟩], [⟨2, 0⟩]] : List Edge).reverse ≠
        canonicalRotationEdges [[⟨2, 0⟩], [⟨3, 0⟩], [⟨4, 0⟩], [⟨2, 0⟩]] := by
  constructor
  · rfl
  · decide

set_option maxRecDepth 200000 in
/-- C2: enumerating the 81 center-1 candidate combinations yields exactly 24
coronas: every candidate passes `validate`, the retained coronas have
pairwise distinct canonical rotation keys, every candidate shares its key
with some retained corona, and the retained list preserves the candidate
(first-encountered) order. -/
theorem enumerateUniqueCoronasCenter1_spec :
    enumerateUniqueCoronasCenter1.length = 24 ∧
      center1Candidates.length = 81 ∧
      (center1Candidates.all fun co => resultOk (co.validate [1, 2, 3, 4])) = true ∧
      (enumerateUniqueCoronasCenter1.map fun co => canonicalRotationEdges co.edges).Nodup ∧
      (center1Candidates.all fun co => enumerateUniqueCoronasCenter1.any fun u =>
        canonicalRotationEdges u.edges = canonicalRotationEdges co.edges) = true ∧
      enumerateUniqueCoronasCenter1.Sublist center1Candidates := by
  refine ⟨by decide, by decide, by decide, by decide, by decide, by decide⟩

set_option maxHeartbeats 1000000 in
/-- C1: for a corona whose center is a positive integer and whose four edges
each pass the edge-local checks, writing `l i` for the last segment and
`f i` for the first segment of edge `i` after sorting by offset: `validate`
fails with exactly "1x1 corner gap with asymmetric edges" when some corner
has overhang 1 meeting a unit first segment and the four last-segment sizes
are not all identical, and succeeds otherwise. -/
theorem validate_corner_gap_rule (c : Int) (allowed : List Int) (e0 e1 e2 e3 : Edge)
    (hc : 0 < c)
    (hlocal : checkEdges c allowed [e0, e1, e2, e3] = .ok none)
    (l0 l1 l2 l3 f0 f1 f2 f3 : EdgeSeg)
    (hl0 : (sortByOffset e0).getLast? = some l0)
    (hl1 : (sortByOffset e1).getLast? = some l1)
    (hl2 : (sortByOffset e2).getLast? = some l2)
    (hl3 : (sortByOffset e3).getLast? = some l3)
    (hf0 : (sortByOffset e0).head? = some f0)
    (hf1 : (sortByOffset e1).head? = some f1)
    (hf2 : (sortByOffset e2).head? = some f2)
    (hf3 : (sortByOffset e3).head? = some f3) :
    Corona.validate ⟨some c, [e0, e1, e2, e3]⟩ allowed =
      .ok (if ((l0.offset + l0.size - c = 1 ∧ f1.size = 1) ∨
               (l1.offset + l1.size - c = 1 ∧ f2.size = 1) ∨
               (l2.offset + l2.size - c = 1 ∧ f3.size = 1) ∨
               (l3.offset + l3.size - c = 1 ∧ f0.size = 1)) ∧
              ¬(l1.size = l0.size ∧ l2.size = l0.size ∧ l3.size = l0.size)
           then .fail "1x1 corner gap with asymmetric edges"
           else .ok) := by
  have hca0 : cornerAt c e0 e1 = .ok (l0.size, (l0.offset + l0.size - c == 1) && (f1.size == 1)) := by
    rw [cornerAt, jsLast_eq_of_getLast hl0, jsFirst_eq_of_head hf1]
    rfl
  have hca1 : cornerAt c e1 e2 = .ok (l1.size, (l1.offset + l1.size - c == 1) && (f2.size == 1)) := by
    rw [cornerAt, jsLast_eq_of_getLast hl1, jsFirst_eq_of_head hf2]
    rfl
  have hca2 : cornerAt c e2 e3 = .ok (l2.size, (l2.offset + l2.size - c == 1) && (f3.size == 1)) := by
    rw [cornerAt, jsLast_eq_of_getLast hl2, jsFirst_eq_of_head hf3]
    rfl
  have hca3 : cornerAt c e3 e0 = .ok (l3.size, (l3.offset + l3.size - c == 1) && (f0.size == 1)) := by
    rw [cornerAt, jsLast_eq_of_getLast hl3, jsFirst_eq_of_head hf0]
    rfl
  rw [Corona.validate]
  simp only [show ¬(c ≤ 0) from by omega, if_false, ite_false]
  rw [if_neg (by simp : ¬(([e0, e1, e2, e3] : List Edge).length ≠ 4))]
  rw [hlocal]
  rw [cornerPhase]
  simp only [hca0, hca1, hca2, hca3, bind, Except.bind]
  have hiff :
      (((l0.offset + l0.size - c == 1) && (f1.size == 1) ||
        (l1.offset + l1.size - c == 1) && (f2.size == 1) ||
        (l2.offset + l2.size - c == 1) && (f3.size == 1) ||
        (l3.offset + l3.size - c == 1) && (f0.size == 1)) &&
          !((l1.size == l0.size) && (l2.size == l0.size) && (l3.size == l0.size))) = true ↔
        (((l0.offset + l0.size - c = 1 ∧ f1.size = 1) ∨
          (l1.offset + l1.size - c = 1 ∧ f2.size = 1) ∨
          (l2.offset + l2.size - c = 1 ∧ f3.size = 1) ∨
          (l3.offset + l3.size - c = 1 ∧ f0.size = 1)) ∧
         ¬(l1.size = l0.size ∧ l2.size = l0.size ∧ l3.size = l0.size)) := by
    simp only [int_beq_eq_decide, Bool.and_eq_true, Bool.or_eq_true, Bool.not_eq_true',
      Bool.and_eq_false_iff, decide_eq_true_eq, decide_eq_false_iff_not]
    tauto
  split
  next hB =>
    rw [if_pos (hiff.mp hB)]
    rfl
  next hB =>
    rw [if_neg fun hp => hB (hiff.mpr hp)]
    rfl

/-- Witness for C1 at the corona `2|1^0,2^1|1^0,2^1|1^0,4^1|1^0,4^1`. -/
theorem validate_corner_gap_rule_witness :
    Corona.validate
        ⟨some 2, [[⟨1, 0⟩, ⟨2, 1⟩], [⟨1, 0⟩, ⟨2, 1⟩], [⟨1, 0⟩, ⟨4, 1⟩], [⟨1, 0⟩, ⟨4, 1⟩]]⟩
        [1, 2, 3, 4] =
      .ok (.fail "1x1 corner gap with asymmetric edges") := by
  have h := validate_corner_gap_rule 2 [1, 2, 3, 4]
    [⟨1, 0⟩, ⟨2, 1⟩] [⟨1, 0⟩, ⟨2, 1⟩] [⟨1, 0⟩, ⟨4, 1⟩] [⟨1, 0⟩, ⟨4, 1⟩]
    (by decide) (by decide)
    ⟨2, 1⟩ ⟨2, 1⟩ ⟨4, 1⟩ ⟨4, 1⟩ ⟨1, 0⟩ ⟨1, 0⟩ ⟨1, 0⟩ ⟨1, 0⟩
    (by decide) (by decide) (by decide) (by decide)
    (by decide) (by decide) (by decide) (by decide)
  exact h.trans (by decide)

theorem fromCompact_ok_shape {t : List Char} {co : Corona}
    (h : Corona.fromCompact t = .ok co) :
    co.edges.length = 4 ∧ ∀ e ∈ co.edges, e ≠ [] ∧ ∀ s ∈ e, 0 ≤ s.size := by
  by_cases h5 : (splitChar '|' (stripWs t)).length = 5
  · rcases hsp : splitChar '|' (stripWs t) with
      _ | ⟨p0, _ | ⟨p1, _ | ⟨p2, _ | ⟨p3, _ | ⟨p4, _ | ⟨p5, rest⟩⟩⟩⟩⟩⟩ <;>
      rw [hsp] at h5 <;> try simp at h5
    rw [fromCompact_parts5 t p0 p1 p2 p3 p4 hsp] at h
    cases he1 : parseEdgeTxt p1 with
    | error m => rw [he1] at h; cases h
    | ok g1 =>
      cases he2 : parseEdgeTxt p2 with
      | error m => rw [he1, he2] at h; cases h
      | ok g2 =>
        cases he3 : parseEdgeTxt p3 with
        | error m => rw [he1, he2, he3] at h; cases h
        | ok g3 =>
          cases he4 : parseEdgeTxt p4 with
          | error m => rw [he1, he2, he3, he4] at h; cases h
          | ok g4 =>
            rw [he1, he2, he3, he4] at h
            simp only [bind, Except.bind, pure, Except.pure, Except.ok.injEq] at h
            subst h
            refine ⟨rfl, ?_⟩
            intro e he
            have hfacts : ∀ (p : List Char) (g : List EdgeSeg),
                parseEdgeTxt p = .ok g → g ≠ [] ∧ ∀ s ∈ g, 0 ≤ s.size := by
              intro p g hg
              exact ⟨parseSegs_ne_nil (splitChar_ne_nil ',' p) hg, parseSegs_sizes hg⟩
            rcases (by simpa using he : e = g1 ∨ e = g2 ∨ e = g3 ∨ e = g4) with
              rfl | rfl | rfl | rfl
            · exact hfacts p1 e he1
            · exact hfacts p2 e he2
            · exact hfacts p3 e he3
            · exact hfacts p4 e he4
  · rw [fromCompact_not5 t h5] at h
    cases h


/-- C5 counterexample: the corona `⟨1, [[2^0], [2^0], [2^0]]⟩` has three
edges, each already sorted, so its serialization is "produced by `toCompact`
of a corona whose edges were already so sorted" — yet `fromCompact` of that
text raises instead of reproducing it, refuting the claimed unrestricted
"exactly when". -/
theorem compact_roundtrip_counterexample :
    (∀ e ∈ ([[⟨2, 0⟩], [⟨2, 0⟩], [⟨2, 0⟩]] : List Edge), sortSegs e = e) ∧
      Corona.fromCompact (Corona.toCompact ⟨some 1, [[⟨2, 0⟩], [⟨2, 0⟩], [⟨2, 0⟩]]⟩) =
        .error "Expected center + 4 edges" := by
  exact ⟨by decide, by decide⟩

/-- C5 (amended): serializing a well-formed corona and re-parsing yields the
same center with each edge replaced by its `(offset, size)`-sorted
permutation; and `toCompact (fromCompact t) = t` exactly when `t` is the
serialization of an already-sorted corona with four non-empty edges and
pattern-representable (nonnegative) sizes. -/
theorem compact_roundtrip_spec :
    (∀ co : Corona, wellFormedData co →
        Corona.fromCompact (Corona.toCompact co) = .ok ⟨co.center, co.edges.map sortSegs⟩ ∧
        ∀ e ∈ co.edges, (sortSegs e).Perm e ∧ List.Sorted segLE (sortSegs e)) ∧
      ∀ t : List Char,
        (∃ co, Corona.fromCompact t = .ok co ∧ Corona.toCompact co = t) ↔
          ∃ co, compactWF co ∧ (∀ e ∈ co.edges, sortSegs e = e) ∧ t = Corona.toCompact co := by
  constructor
  · intro co hwf
    obtain ⟨⟨c, hc, hcpos⟩, h4, hne⟩ := hwf
    refine ⟨fromCompact_toCompact co h4 (fun e he => (hne e he).1)
      (fun e he s hs => le_of_lt ((hne e he).2 s hs)), ?_⟩
    intro e _
    exact ⟨List.perm_insertionSort segLE e, List.sorted_insertionSort segLE e⟩
  · intro t
    constructor
    · rintro ⟨co, hok, hto⟩
      obtain ⟨h4, hprops⟩ := fromCompact_ok_shape hok
      refine ⟨⟨co.center, co.edges.map sortSegs⟩, ⟨by simp [h4], ?_⟩, ?_, ?_⟩
      · intro e he
        rw [List.mem_map] at he
        obtain ⟨e', he', rfl⟩ := he
        exact ⟨sortSegs_ne_nil (hprops e' he').1,
          fun s hs => (hprops e' he').2 s (mem_sortSegs.mp hs)⟩
      · intro e he
        rw [List.mem_map] at he
        obtain ⟨e', _, rfl⟩ := he
        exact sortSegs_idem e'
      · rw [toCompact_map_sortSegs co]
        exact hto.symm
    · rintro ⟨co, ⟨h4, hprops⟩, hsorted, rfl⟩
      exact ⟨⟨co.center, co.edges.map sortSegs⟩,
        fromCompact_toCompact co h4 (fun e he => (hprops e he).1)
          (fun e he => (hprops e he).2),
        toCompact_map_sortSegs co⟩

/-- Witness for C5 at a concrete well-formed corona with an unsorted edge. -/
theorem compact_roundtrip_spec_witness :
    Corona.fromCompact
        (Corona.toCompact ⟨some 2, [[⟨2, 1⟩, ⟨1, 0⟩], [⟨3, 0⟩], [⟨3, 0⟩], [⟨3, 0⟩]]⟩) =
      .ok ⟨some 2, [[⟨1, 0⟩, ⟨2, 1⟩], [⟨3, 0⟩], [⟨3, 0⟩], [⟨3, 0⟩]]⟩ := by
  have h := (compact_roundtrip_spec.1 ⟨some 2, [[⟨2, 1⟩, ⟨1, 0⟩], [⟨3, 0⟩], [⟨3, 0⟩], [⟨3, 0⟩]]⟩
    ⟨⟨2, rfl, by decide⟩, by decide, by decide⟩).1
  exact h.trans (by decide)
